import Mathlib

/-!
Verification of the CSC4100-project2 timed-sleep subsystem and its
fixed-point arithmetic helper.

The fixed-point component is embedded directly from
`src/threads/fixed_point.h`.  C `int` values are modelled as unbounded
integers together with an explicit 32-bit wraparound `i32` applied at
every C arithmetic step whose result is stored in an `int`; C integer
division (which truncates toward zero) is `Int.tdiv`.  The 64-bit
intermediates of `fp_mul` and `fp_div` are modelled exactly, since a
product or scaled dividend of 32-bit operands cannot overflow 64 bits.
-/

namespace FixedPoint

/-- The scale factor `FP_F = 1 << 14` from `threads/fixed_point.h`. -/
def FP_F : Int := 16384

/-- Wrap an unbounded integer into the 32-bit signed range
`[-2147483648, 2147483647]`, modelling C `int` wraparound
(`2147483648 = 2^31`, `4294967296 = 2^32`). -/
def i32 (z : Int) : Int := (z + 2147483648) % 4294967296 - 2147483648

/-- `fp_int_to_fp (int n) { return n * FP_F; }` -/
def fp_int_to_fp (n : Int) : Int := i32 (n * FP_F)

/-- `fp_to_int_zero (int x) { return x / FP_F; }` — C division truncates
toward zero; the quotient of a 32-bit value by 16384 cannot overflow. -/
def fp_to_int_zero (x : Int) : Int := Int.tdiv x FP_F

/-- `fp_to_int_nearest (int x)`: `(x + FP_F / 2) / FP_F` when `x >= 0`,
`(x - FP_F / 2) / FP_F` otherwise.  The rounding addition is a 32-bit
`int` operation, hence wrapped. -/
def fp_to_int_nearest (x : Int) : Int :=
  if 0 ≤ x then Int.tdiv (i32 (x + FP_F / 2)) FP_F
  else Int.tdiv (i32 (x - FP_F / 2)) FP_F

/-- `fp_add (int x, int y) { return x + y; }` -/
def fp_add (x y : Int) : Int := i32 (x + y)

/-- `fp_sub (int x, int y) { return x - y; }` -/
def fp_sub (x y : Int) : Int := i32 (x - y)

/-- `fp_add_int (int x, int n) { return x + n * FP_F; }` -/
def fp_add_int (x n : Int) : Int := i32 (x + i32 (n * FP_F))

/-- `fp_sub_int (int x, int n) { return x - n * FP_F; }` -/
def fp_sub_int (x n : Int) : Int := i32 (x - i32 (n * FP_F))

/-- `fp_mul (int x, int y) { return (int) (((int64_t) x) * y / FP_F); }` -/
def fp_mul (x y : Int) : Int := i32 (Int.tdiv (x * y) FP_F)

/-- `fp_div (int x, int y) { return (int) (((int64_t) x) * FP_F / y); }` —
the source has no guard: a zero divisor is undefined behaviour of the
64-bit division, modelled as `none`. -/
def fp_div (x y : Int) : Option Int :=
  if y = 0 then none else some (i32 (Int.tdiv (x * FP_F) y))

/-- `fp_mul_int (int x, int n) { return x * n; }` -/
def fp_mul_int (x n : Int) : Int := i32 (x * n)

/-- `fp_div_int (int x, int n) { return x / n; }` — no guard; a zero
divisor is undefined behaviour, modelled as `none`. -/
def fp_div_int (x n : Int) : Option Int :=
  if n = 0 then none else some (i32 (Int.tdiv x n))

/-- Wrapping is the identity on the 32-bit signed range. -/
theorem i32_eq_self (z : Int) (h1 : -2147483648 ≤ z) (h2 : z ≤ 2147483647) :
    i32 z = z := by
  unfold i32
  rw [Int.emod_eq_of_lt (by omega) (by omega)]
  omega

end FixedPoint

namespace FixedPoint

/-- C7 (amended): a nonnegative halfway value `k*16384 + 8192` whose
rounding addition stays in 32-bit range (`k ≤ 131070`) rounds up to
`k + 1`, and every representable negative halfway value
(`0 ≤ k ≤ 131071`) rounds away from zero to `-(k + 1)`.  At `k = 131071`
the positive halfway value is representable but the rounding addition
overflows 32 bits. -/
theorem fp_nearest_half_away (k : Int) (hk : 0 ≤ k) :
    (k ≤ 131070 → fp_to_int_nearest (k * 16384 + 8192) = k + 1) ∧
    (k ≤ 131071 → fp_to_int_nearest (-(k * 16384 + 8192)) = -(k + 1)) := by
  constructor
  · intro hk2
    unfold fp_to_int_nearest FP_F
    rw [if_pos (by omega)]
    have e1 : k * 16384 + 8192 + (16384 : Int) / 2 = (k + 1) * 16384 := by
      norm_num; ring
    rw [e1, i32_eq_self ((k + 1) * 16384) (by omega) (by omega)]
    exact Int.mul_tdiv_cancel (k + 1) (by norm_num)
  · intro hk2
    unfold fp_to_int_nearest FP_F
    rw [if_neg (by omega)]
    have e1 : -(k * 16384 + 8192) - (16384 : Int) / 2 = (-(k + 1)) * 16384 := by
      norm_num; ring
    rw [e1, i32_eq_self ((-(k + 1)) * 16384) (by omega) (by omega)]
    exact Int.mul_tdiv_cancel (-(k + 1)) (by norm_num)

/-- C7 witness: the representation of 1.5 rounds to 2 and the
representation of -1.5 rounds to -2. -/
theorem fp_nearest_half_away_witness :
    fp_to_int_nearest (1 * 16384 + 8192) = 1 + 1 ∧
    fp_to_int_nearest (-(1 * 16384 + 8192)) = -(1 + 1) :=
  ⟨(fp_nearest_half_away 1 (by decide)).1 (by decide),
   (fp_nearest_half_away 1 (by decide)).2 (by decide)⟩

/-- C7 counterexample: at `k = 131071` the halfway value
`131071*16384 + 8192 = 2147475456` is a representable fixed-point value,
but the rounding addition wraps to `-2^31`, so the result is `-131072`,
not `k + 1`. -/
theorem fp_nearest_half_away_cex :
    fp_to_int_nearest (131071 * 16384 + 8192) ≠ 131071 + 1 := by decide

/-- C8: for every integer whose scaled value fits in a 32-bit signed
integer, fixed-point conversion followed by truncating conversion back
is the identity. -/
theorem fp_round_trip (n : Int) (h1 : -2147483648 ≤ n * 16384)
    (h2 : n * 16384 ≤ 2147483647) :
    fp_to_int_zero (fp_int_to_fp n) = n := by
  unfold fp_to_int_zero fp_int_to_fp FP_F
  rw [i32_eq_self (n * 16384) (by omega) (by omega)]
  exact Int.mul_tdiv_cancel n (by norm_num)

/-- C8 witness: round trip at `n = 5`. -/
theorem fp_round_trip_witness : fp_to_int_zero (fp_int_to_fp 5) = 5 :=
  fp_round_trip 5 (by decide) (by decide)

/-- C9: the divisions carry no zero-divisor guard; they are well-defined
exactly when the divisor is nonzero. -/
theorem fp_div_defined_iff (x y n : Int) :
    ((fp_div x y).isSome ↔ y ≠ 0) ∧ ((fp_div_int x n).isSome ↔ n ≠ 0) := by
  constructor
  · unfold fp_div
    split <;> simp_all
  · unfold fp_div_int
    split <;> simp_all

/-- C10: for a 32-bit `x` and an integer `n` whose scaled value fits in
32 bits, the direct integer-multiply path agrees with the widened
fixed-times-fixed path on the converted integer. -/
theorem fp_mul_int_refines (x n : Int) (_hx1 : -2147483648 ≤ x)
    (_hx2 : x ≤ 2147483647) (hn1 : -131072 ≤ n) (hn2 : n ≤ 131071) :
    fp_mul_int x n = fp_mul x (fp_int_to_fp n) := by
  unfold fp_mul_int fp_mul fp_int_to_fp FP_F
  rw [i32_eq_self (n * 16384) (by omega) (by omega)]
  have e : x * (n * 16384) = x * n * 16384 := by ring
  rw [e, Int.mul_tdiv_cancel (x * n) (by norm_num)]

/-- C10 witness: agreement at `x = 5`, `n = 3`. -/
theorem fp_mul_int_refines_witness : fp_mul_int 5 3 = fp_mul 5 (fp_int_to_fp 3) :=
  fp_mul_int_refines 5 3 (by decide) (by decide) (by decide) (by decide)

end FixedPoint

/-!
The alarm-clock subsystem.  `timer.c` itself is not among the sources;
`ALARM_CLOCK_REFACTOR.md` quotes its key fragments (the `timer_interrupt`
body, the ordered insertion, the cache update and recomputation) and the
design document fixes the rest, so the definitions below are modelled
from those fragments and from the specification, as noted per definition.
Thread ids are natural numbers; the `ready` field is the append-only log
of threads handed to `thread_unblock`, each recorded with the
`wakeup_tick` it slept on.
-/

namespace Alarm

/-- Sentinel cache value when no thread sleeps (`INT64_MAX`). -/
def INT64_MAX : Int := 9223372036854775807

/-- One sleeping thread: its id and the absolute `wakeup_tick` field. -/
structure SleepRec where
  tid : Nat
  wakeup_tick : Int
deriving DecidableEq

/-- Scheduler state touched by the alarm clock: the global tick counter,
the ordered `sleeping_list`, the `next_wakeup_tick` cache, and the log of
threads transitioned to Ready by the wakeup scan. -/
structure KState where
  ticks : Int
  sleeping_list : List SleepRec
  next_wakeup_tick : Int
  ready : List SleepRec
deriving DecidableEq

/-- Thread ids of a record list. -/
def tids (l : List SleepRec) : List Nat := l.map SleepRec.tid

/-- Pintos `list_insert_ordered` with the `wakeup_time_less` comparator:
the new record goes immediately before the first member with a strictly
larger `wakeup_tick`, hence after all equal keys (stable). -/
def list_insert_ordered (l : List SleepRec) (e : SleepRec) : List SleepRec :=
  match l with
  | [] => [e]
  | a :: rest =>
    if e.wakeup_tick < a.wakeup_tick then e :: a :: rest
    else a :: list_insert_ordered rest e

/-- Modelled from the spec: `timer_sleep` of `timer.c` is not among the
sources.  ALARM_CLOCK_REFACTOR.md (lines 24-58) quotes its ordered
insertion into `sleeping_list` and the lowering of `next_wakeup_tick`;
spec section 4.1 fixes `wake_tick = clock + ticks_to_wait` and the
immediate no-op return on a zero or negative duration.  Blocking and the
interrupt mask are implicit: the whole body is one atomic step. -/
def timer_sleep (st : KState) (t : Nat) (ticks_to_wait : Int) : KState :=
  if ticks_to_wait ≤ 0 then st
  else
    let wakeup_tick := st.ticks + ticks_to_wait
    { st with
      sleeping_list := list_insert_ordered st.sleeping_list ⟨ t, wakeup_tick⟩,
      next_wakeup_tick :=
        if wakeup_tick < st.next_wakeup_tick then wakeup_tick
        else st.next_wakeup_tick }

/-- Cache recomputation from ALARM_CLOCK_REFACTOR.md lines 96-105: the
front entry's `wakeup_tick`, or `INT64_MAX` when the registry is empty. -/
def next_from_front : List SleepRec → Int
  | [] => INT64_MAX
  | r :: _ => r.wakeup_tick

/-- Modelled from the spec: `check_sleeping_threads` of `timer.c` is not
among the sources.  ALARM_CLOCK_REFACTOR.md (lines 85-106) quotes its
`thread_unblock` call and the cache recomputation from the new front (or
`INT64_MAX` when empty); spec section 4.3 fixes the walk from the sorted
front that stops at the first entry with `wakeup_tick > Global Clock`. -/
def check_sleeping_threads (st : KState) : KState :=
  let due := st.sleeping_list.takeWhile (fun r => decide (r.wakeup_tick ≤ st.ticks))
  let rest := st.sleeping_list.dropWhile (fun r => decide (r.wakeup_tick ≤ st.ticks))
  { st with
    sleeping_list := rest,
    next_wakeup_tick := next_from_front rest,
    ready := st.ready ++ due }

/-- `timer_interrupt` from ALARM_CLOCK_REFACTOR.md lines 66-76: increment
`ticks`, then scan only when `ticks >= next_wakeup_tick`.  The
`thread_tick ()` call is external bookkeeping with no effect on this
state. -/
def timer_interrupt (st : KState) : KState :=
  let st1 := { st with ticks := st.ticks + 1 }
  if st1.next_wakeup_tick ≤ st1.ticks then check_sleeping_threads st1 else st1

/-- Number of registry entries whose wakeup time the sorted scan
examines: every due entry plus the first not-yet-due entry at which the
walk stops. -/
def scan_comparisons (st : KState) : Nat :=
  (st.sleeping_list.takeWhile (fun r => decide (r.wakeup_tick ≤ st.ticks))).length +
    (if st.sleeping_list.dropWhile (fun r => decide (r.wakeup_tick ≤ st.ticks)) = []
     then 0 else 1)

/-- Registry-entry comparisons performed by one timer interrupt: zero
when the cache check fails, the scan's count otherwise. -/
def tick_comparisons (st : KState) : Nat :=
  if st.next_wakeup_tick ≤ st.ticks + 1 then
    scan_comparisons { st with ticks := st.ticks + 1 }
  else 0

/-- An externally visible event: a sleep request by a running thread, or
one hardware timer tick. -/
inductive Event where
  | sleep (t : Nat) (dur : Int)
  | tick
deriving DecidableEq

/-- One atomic step of the subsystem. -/
def step (st : KState) : Event → KState
  | .sleep t dur => timer_sleep st t dur
  | .tick => timer_interrupt st

/-- Run a finite event sequence. -/
def run (st : KState) (evs : List Event) : KState := evs.foldl step st

/-- Boot state: clock 0, empty registry, sentinel cache, nothing woken. -/
def boot : KState :=
  { ticks := 0, sleeping_list := [], next_wakeup_tick := INT64_MAX, ready := [] }

/-- Side conditions under which an event can occur: a sleep request comes
from a running thread, which therefore sits in neither the registry nor
the ready log (each request is one execution unit), and its wakeup tick
does not overflow the int64 clock. -/
def ValidStep (st : KState) : Event → Prop
  | .sleep t dur =>
    t ∉ tids st.sleeping_list ∧ t ∉ tids st.ready ∧ st.ticks + dur ≤ INT64_MAX
  | .tick => True

/-- A sequence of events each of which is valid in the state it hits. -/
def Valid : KState → List Event → Prop
  | _, [] => True
  | st, e :: evs => ValidStep st e ∧ Valid (step st e) evs

instance decidableValidStep (st : KState) : (e : Event) → Decidable (ValidStep st e)
  | .sleep _ _ => inferInstanceAs (Decidable (_ ∧ _ ∧ _))
  | .tick => inferInstanceAs (Decidable True)

instance decidableValid : (st : KState) → (evs : List Event) → Decidable (Valid st evs)
  | _, [] => inferInstanceAs (Decidable True)
  | st, e :: evs =>
    have : Decidable (Valid (step st e) evs) := decidableValid (step st e) evs
    inferInstanceAs (Decidable (_ ∧ _))

/-- Fold of `min` over the registry wakeup ticks, seeded with the
sentinel. -/
def registry_min (l : List SleepRec) : Int :=
  l.foldr (fun r m => min r.wakeup_tick m) INT64_MAX

/-- Invariant of every reachable alarm-clock state. -/
structure Inv (st : KState) : Prop where
  sorted : st.sleeping_list.Pairwise (fun a b => a.wakeup_tick ≤ b.wakeup_tick)
  cache : st.next_wakeup_tick = registry_min st.sleeping_list
  bounded : ∀ r ∈ st.sleeping_list, r.wakeup_tick ≤ INT64_MAX
  future : ∀ r ∈ st.sleeping_list, st.ticks < r.wakeup_tick
  ready_le : ∀ r ∈ st.ready, r.wakeup_tick ≤ st.ticks
  nodup : (tids st.sleeping_list ++ tids st.ready).Nodup

/-- The boot state satisfies the invariant. -/
theorem Inv_boot : Inv boot := by
  constructor <;> simp [boot, tids, registry_min]

end Alarm

namespace Alarm

/-- Ordered insertion is a permutation of consing. -/
theorem insert_perm (l : List SleepRec) (e : SleepRec) :
    List.Perm (list_insert_ordered l e) (e :: l) := by
  induction l with
  | nil => simp [list_insert_ordered]
  | cons a rest ih =>
    unfold list_insert_ordered
    split
    · exact List.Perm.refl _
    · exact (List.Perm.cons a ih).trans (List.Perm.swap e a rest)

/-- Membership after ordered insertion. -/
theorem mem_insert_iff (l : List SleepRec) (e x : SleepRec) :
    x ∈ list_insert_ordered l e ↔ x = e ∨ x ∈ l := by
  rw [(insert_perm l e).mem_iff, List.mem_cons]

/-- Ordered insertion preserves the sort invariant. -/
theorem insert_sorted (l : List SleepRec) (e : SleepRec)
    (h : l.Pairwise (fun a b => a.wakeup_tick ≤ b.wakeup_tick)) :
    (list_insert_ordered l e).Pairwise
      (fun a b => a.wakeup_tick ≤ b.wakeup_tick) := by
  induction l with
  | nil => simp [list_insert_ordered]
  | cons a rest ih =>
    rw [List.pairwise_cons] at h
    unfold list_insert_ordered
    split
    · rename_i hlt
      rw [List.pairwise_cons]
      refine ⟨?_, List.pairwise_cons.mpr h⟩
      intro b hb
      rcases List.mem_cons.mp hb with hb | hb
      · subst hb; omega
      · have := h.1 b hb; omega
    · rename_i hge
      rw [List.pairwise_cons]
      refine ⟨?_, ih h.2⟩
      intro b hb
      rcases (mem_insert_iff rest e b).mp hb with hb | hb
      · subst hb; omega
      · exact h.1 b hb

/-- Fold step of the registry minimum. -/
theorem registry_min_cons (a : SleepRec) (rest : List SleepRec) :
    registry_min (a :: rest) = min a.wakeup_tick (registry_min rest) := rfl

/-- Registry minimum of the empty registry is the sentinel. -/
theorem registry_min_nil : registry_min [] = INT64_MAX := rfl

/-- The registry minimum is a lower bound on every member. -/
theorem registry_min_le (l : List SleepRec) (r : SleepRec) (hr : r ∈ l) :
    registry_min l ≤ r.wakeup_tick := by
  induction l with
  | nil => cases hr
  | cons a rest ih =>
    rw [registry_min_cons]
    rcases List.mem_cons.mp hr with hr | hr
    · subst hr; exact min_le_left _ _
    · exact le_trans (min_le_right _ _) (ih hr)

/-- A common lower bound (below the sentinel) bounds the registry
minimum. -/
theorem le_registry_min (l : List SleepRec) (c : Int) (hc : c ≤ INT64_MAX)
    (h : ∀ r ∈ l, c ≤ r.wakeup_tick) : c ≤ registry_min l := by
  induction l with
  | nil => exact hc
  | cons a rest ih =>
    rw [registry_min_cons]
    exact le_min (h a (List.mem_cons_self a rest))
      (ih fun r hr => h r (List.mem_cons_of_mem a hr))

/-- On a nonempty registry of representable ticks, the registry minimum
is attained by a member. -/
theorem registry_min_mem (l : List SleepRec) (hne : l ≠ [])
    (hb : ∀ r ∈ l, r.wakeup_tick ≤ INT64_MAX) :
    registry_min l ∈ l.map SleepRec.wakeup_tick := by
  induction l with
  | nil => exact absurd rfl hne
  | cons a rest ih =>
    rw [registry_min_cons]
    match rest with
    | [] =>
      rw [registry_min_nil,
        min_eq_left (hb a (List.mem_cons_self a []))]
      simp
    | b :: rest2 =>
      rcases le_total a.wakeup_tick (registry_min (b :: rest2)) with hle | hle
      · rw [min_eq_left hle]; simp
      · rw [min_eq_right hle]
        have hm := ih (by simp)
          (fun r hr => hb r (List.mem_cons_of_mem a hr))
        simp only [List.map_cons, List.mem_cons] at hm ⊢
        exact Or.inr hm

/-- Ordered insertion updates the registry minimum by a `min`. -/
theorem registry_min_insert (l : List SleepRec) (e : SleepRec) :
    registry_min (list_insert_ordered l e) =
      min e.wakeup_tick (registry_min l) := by
  induction l with
  | nil => rfl
  | cons a rest ih =>
    unfold list_insert_ordered
    split
    · rfl
    · rw [registry_min_cons, ih, registry_min_cons, min_left_comm]

/-- On a sorted registry of representable ticks, the minimum is the front
entry. -/
theorem registry_min_front (a : SleepRec) (rest : List SleepRec)
    (hs : (a :: rest).Pairwise (fun x y => x.wakeup_tick ≤ y.wakeup_tick))
    (hb : ∀ r ∈ a :: rest, r.wakeup_tick ≤ INT64_MAX) :
    registry_min (a :: rest) = a.wakeup_tick := by
  rw [registry_min_cons]
  refine min_eq_left (le_registry_min rest a.wakeup_tick
    (hb a (List.mem_cons_self a rest)) ?_)
  exact (List.pairwise_cons.mp hs).1

/-- In a sorted registry, every entry surviving the due-prefix removal
has a wakeup tick beyond the clock. -/
theorem mem_dropWhile_gt (l : List SleepRec) (c : Int)
    (hs : l.Pairwise (fun a b => a.wakeup_tick ≤ b.wakeup_tick))
    (r : SleepRec)
    (hr : r ∈ l.dropWhile (fun x => decide (x.wakeup_tick ≤ c))) :
    c < r.wakeup_tick := by
  induction l with
  | nil => simp [List.dropWhile] at hr
  | cons a rest ih =>
    rw [List.pairwise_cons] at hs
    by_cases h : a.wakeup_tick ≤ c
    · rw [List.dropWhile_cons_of_pos (by simpa using h)] at hr
      exact ih hs.2 hr
    · rw [List.dropWhile_cons_of_neg (by simpa using h)] at hr
      rcases List.mem_cons.mp hr with hr | hr
      · subst hr; omega
      · have := hs.1 r hr; omega

end Alarm

namespace Alarm

/-- On a sorted, representable registry the front-or-sentinel
recomputation yields the registry minimum. -/
theorem next_from_front_eq_min (l : List SleepRec)
    (hs : l.Pairwise (fun a b => a.wakeup_tick ≤ b.wakeup_tick))
    (hb : ∀ r ∈ l, r.wakeup_tick ≤ INT64_MAX) :
    next_from_front l = registry_min l := by
  match l with
  | [] => rfl
  | a :: rest => exact (registry_min_front a rest hs hb).symm

/-- Three-block append permutation used to track thread ids across the
wakeup scan. -/
theorem perm_shuffle (u v w : List Nat) :
    List.Perm ((u ++ v) ++ w) (v ++ (w ++ u)) := by
  have h1 : List.Perm ((u ++ v) ++ w) ((v ++ u) ++ w) :=
    List.perm_append_comm.append_right w
  have h2 : (v ++ u) ++ w = v ++ (u ++ w) := List.append_assoc v u w
  have h3 : List.Perm (v ++ (u ++ w)) (v ++ (w ++ u)) :=
    List.Perm.append_left v List.perm_append_comm
  rw [h2] at h1
  exact h1.trans h3

/-- The wakeup scan reestablishes the invariant from a state whose
registry is sorted, representable and duplicate-free and whose ready log
is not in the future; the scan needs no assumption that the registry
entries are still pending. -/
theorem Inv_check_sleeping (s : KState)
    (hs : s.sleeping_list.Pairwise (fun a b => a.wakeup_tick ≤ b.wakeup_tick))
    (hb : ∀ r ∈ s.sleeping_list, r.wakeup_tick ≤ INT64_MAX)
    (hr : ∀ r ∈ s.ready, r.wakeup_tick ≤ s.ticks)
    (hn : (tids s.sleeping_list ++ tids s.ready).Nodup) :
    Inv (check_sleeping_threads s) := by
  have hrest_sorted :
      (s.sleeping_list.dropWhile
        (fun r => decide (r.wakeup_tick ≤ s.ticks))).Pairwise
        (fun a b => a.wakeup_tick ≤ b.wakeup_tick) :=
    hs.sublist (List.dropWhile_sublist _)
  have hrest_sub :
      s.sleeping_list.dropWhile (fun r => decide (r.wakeup_tick ≤ s.ticks)) ⊆
        s.sleeping_list :=
    (List.dropWhile_sublist _).subset
  refine ⟨hrest_sorted, ?_, ?_, ?_, ?_, ?_⟩
  · exact next_from_front_eq_min _ hrest_sorted fun r hrm => hb r (hrest_sub hrm)
  · exact fun r hrm => hb r (hrest_sub hrm)
  · exact fun r hrm => mem_dropWhile_gt s.sleeping_list s.ticks hs r hrm
  · intro r hrm
    rcases List.mem_append.mp hrm with hrm | hrm
    · exact hr r hrm
    · have := List.mem_takeWhile_imp hrm
      simpa using this
  · have hdecomp :
        tids s.sleeping_list =
          tids (s.sleeping_list.takeWhile
            (fun r => decide (r.wakeup_tick ≤ s.ticks))) ++
          tids (s.sleeping_list.dropWhile
            (fun r => decide (r.wakeup_tick ≤ s.ticks))) := by
      unfold tids
      rw [← List.map_append, List.takeWhile_append_dropWhile]
    rw [hdecomp] at hn
    have hperm := perm_shuffle
      (tids (s.sleeping_list.takeWhile
        (fun r => decide (r.wakeup_tick ≤ s.ticks))))
      (tids (s.sleeping_list.dropWhile
        (fun r => decide (r.wakeup_tick ≤ s.ticks))))
      (tids s.ready)
    have hgoal := hperm.nodup hn
    show (tids (s.sleeping_list.dropWhile
        (fun r => decide (r.wakeup_tick ≤ s.ticks))) ++
      tids (s.ready ++ s.sleeping_list.takeWhile
        (fun r => decide (r.wakeup_tick ≤ s.ticks)))).Nodup
    unfold tids
    rw [List.map_append]
    exact hgoal

end Alarm

namespace Alarm

/-- A valid sleep request preserves the invariant. -/
theorem Inv_timer_sleep (st : KState) (t : Nat) (dur : Int) (hI : Inv st)
    (h1 : t ∉ tids st.sleeping_list) (h2 : t ∉ tids st.ready)
    (h3 : st.ticks + dur ≤ INT64_MAX) : Inv (timer_sleep st t dur) := by
  unfold timer_sleep
  split
  · exact hI
  · rename_i hpos
    refine ⟨?_, ?_, ?_, ?_, ?_, ?_⟩
    · exact insert_sorted _ _ hI.sorted
    · show (if st.ticks + dur < st.next_wakeup_tick then st.ticks + dur
          else st.next_wakeup_tick) =
        registry_min
          (list_insert_ordered st.sleeping_list ⟨ t, st.ticks + dur⟩)
      rw [registry_min_insert, ← hI.cache]
      have e : (⟨ t, st.ticks + dur⟩ : SleepRec).wakeup_tick =
          st.ticks + dur := rfl
      rw [e]
      split <;> omega
    · intro r hr
      rcases (mem_insert_iff _ _ r).mp hr with hr | hr
      · subst hr; exact h3
      · exact hI.bounded r hr
    · intro r hr
      rcases (mem_insert_iff _ _ r).mp hr with hr | hr
      · subst hr
        show st.ticks < st.ticks + dur
        omega
      · exact hI.future r hr
    · intro r hr
      exact hI.ready_le r hr
    · have hp : List.Perm
          (tids (list_insert_ordered st.sleeping_list
            ⟨ t, st.ticks + dur⟩) ++ tids st.ready)
          ((t :: tids st.sleeping_list) ++ tids st.ready) :=
        ((insert_perm st.sleeping_list
          ⟨ t, st.ticks + dur⟩).map SleepRec.tid).append_right (tids st.ready)
      refine hp.symm.nodup ?_
      rw [List.cons_append, List.nodup_cons]
      refine ⟨?_, hI.nodup⟩
      rw [List.mem_append]
      rintro (hc | hc)
      · exact h1 hc
      · exact h2 hc

/-- A timer tick preserves the invariant. -/
theorem Inv_timer_interrupt (st : KState) (hI : Inv st) :
    Inv (timer_interrupt st) := by
  show Inv (if st.next_wakeup_tick ≤ st.ticks + 1 then
      check_sleeping_threads { st with ticks := st.ticks + 1 }
    else { st with ticks := st.ticks + 1 })
  by_cases hdue : st.next_wakeup_tick ≤ st.ticks + 1
  · rw [if_pos hdue]
    refine Inv_check_sleeping _ hI.sorted hI.bounded ?_ hI.nodup
    intro r hr
    have := hI.ready_le r hr
    show r.wakeup_tick ≤ st.ticks + 1
    omega
  · rw [if_neg hdue]
    refine ⟨hI.sorted, hI.cache, hI.bounded, ?_, ?_, hI.nodup⟩
    · intro r hr
      have hm := registry_min_le st.sleeping_list r hr
      rw [← hI.cache] at hm
      show st.ticks + 1 < r.wakeup_tick
      omega
    · intro r hr
      have := hI.ready_le r hr
      show r.wakeup_tick ≤ st.ticks + 1
      omega

/-- A valid step preserves the invariant. -/
theorem Inv_step (st : KState) (e : Event) (hI : Inv st)
    (hv : ValidStep st e) : Inv (step st e) := by
  cases e with
  | sleep t dur => exact Inv_timer_sleep st t dur hI hv.1 hv.2.1 hv.2.2
  | tick => exact Inv_timer_interrupt st hI

/-- The invariant holds after any valid run. -/
theorem Inv_run (st : KState) (evs : List Event) (hI : Inv st)
    (hv : Valid st evs) : Inv (run st evs) := by
  induction evs generalizing st with
  | nil => exact hI
  | cons e evs ih => exact ih (step st e) (Inv_step st e hI hv.1) hv.2

/-- Running an appended sequence runs the pieces in order. -/
theorem run_append (st : KState) (l1 l2 : List Event) :
    run st (l1 ++ l2) = run (run st l1) l2 := by
  simp [run, List.foldl_append]

/-- Validity splits along an append. -/
theorem Valid_append (st : KState) (l1 l2 : List Event) :
    Valid st (l1 ++ l2) ↔ Valid st l1 ∧ Valid (run st l1) l2 := by
  induction l1 generalizing st with
  | nil =>
    show Valid st l2 ↔ True ∧ Valid st l2
    simp
  | cons e l1 ih =>
    show (ValidStep st e ∧ Valid (step st e) (l1 ++ l2)) ↔
      (ValidStep st e ∧ Valid (step st e) l1) ∧ Valid (run (step st e) l1) l2
    rw [ih (step st e), and_assoc]

/-- A record is tracked by the subsystem: sleeping or already woken. -/
def InState (r : SleepRec) (st : KState) : Prop :=
  r ∈ st.sleeping_list ∨ r ∈ st.ready

/-- No step loses a tracked record. -/
theorem InState_step (r : SleepRec) (st : KState) (e : Event)
    (h : InState r st) : InState r (step st e) := by
  cases e with
  | sleep t dur =>
    show InState r (timer_sleep st t dur)
    unfold timer_sleep
    split
    · exact h
    · rcases h with h | h
      · exact Or.inl ((mem_insert_iff _ _ r).mpr (Or.inr h))
      · exact Or.inr h
  | tick =>
    show InState r (if st.next_wakeup_tick ≤ st.ticks + 1 then
        check_sleeping_threads { st with ticks := st.ticks + 1 }
      else { st with ticks := st.ticks + 1 })
    by_cases hdue : st.next_wakeup_tick ≤ st.ticks + 1
    · rw [if_pos hdue]
      rcases h with h | h
      · have hsp := List.takeWhile_append_dropWhile
          (fun x => decide (x.wakeup_tick ≤ st.ticks + 1)) st.sleeping_list
        rw [← hsp] at h
        rcases List.mem_append.mp h with h | h
        · exact Or.inr (List.mem_append.mpr (Or.inr h))
        · exact Or.inl h
      · exact Or.inr (List.mem_append.mpr (Or.inl h))
    · rw [if_neg hdue]
      exact h

/-- No run loses a tracked record. -/
theorem InState_run (r : SleepRec) (st : KState) (evs : List Event)
    (h : InState r st) : InState r (run st evs) := by
  induction evs generalizing st with
  | nil => exact h
  | cons e evs ih => exact ih (step st e) (InState_step r st e h)

/-- A positive sleep request enters the registry with its wakeup tick. -/
theorem timer_sleep_mem (st : KState) (t : Nat) (dur : Int) (hdur : 0 < dur) :
    InState ⟨ t, st.ticks + dur⟩ (timer_sleep st t dur) := by
  unfold timer_sleep
  rw [if_neg (by omega)]
  exact Or.inl ((mem_insert_iff _ _ _).mpr (Or.inl rfl))

end Alarm

namespace Alarm

/-- C1: in every valid finite sequence of sleep requests and timer
ticks, a unit that requested a positive sleep and whose wakeup tick is
at or below the final Global Clock appears in the Ready log exactly
once — never zero times, never twice. -/
theorem no_lost_wakeup (pre post : List Event) (t : Nat) (dur : Int)
    (hv : Valid boot (pre ++ Event.sleep t dur :: post)) (hdur : 0 < dur)
    (hdue : (run boot pre).ticks + dur ≤
      (run boot (pre ++ Event.sleep t dur :: post)).ticks) :
    (tids (run boot (pre ++ Event.sleep t dur :: post)).ready).count t = 1 := by
  have hsplit := (Valid_append boot pre (Event.sleep t dur :: post)).mp hv
  have hI1 : Inv (run boot pre) := Inv_run boot pre Inv_boot hsplit.1
  have hvs : ValidStep (run boot pre) (Event.sleep t dur) := hsplit.2.1
  have hvpost : Valid (step (run boot pre) (Event.sleep t dur)) post :=
    hsplit.2.2
  have hI2 : Inv (timer_sleep (run boot pre) t dur) :=
    Inv_timer_sleep _ t dur hI1 hvs.1 hvs.2.1 hvs.2.2
  have hrun : run boot (pre ++ Event.sleep t dur :: post) =
      run (timer_sleep (run boot pre) t dur) post := by
    rw [run_append]
    rfl
  have hIF : Inv (run (timer_sleep (run boot pre) t dur) post) :=
    Inv_run _ post hI2 hvpost
  have hmem : InState ⟨ t, (run boot pre).ticks + dur⟩
      (run (timer_sleep (run boot pre) t dur) post) :=
    InState_run _ _ post (timer_sleep_mem (run boot pre) t dur hdur)
  rw [hrun] at hdue ⊢
  rcases hmem with hs | hs
  · exfalso
    have hf := hIF.future _ hs
    have e : (⟨ t, (run boot pre).ticks + dur⟩ : SleepRec).wakeup_tick =
        (run boot pre).ticks + dur := rfl
    rw [e] at hf
    omega
  · have ht : t ∈ tids (run (timer_sleep (run boot pre) t dur) post).ready :=
      List.mem_map_of_mem SleepRec.tid hs
    have hnd := (List.nodup_append.mp hIF.nodup).2.1
    exact List.count_eq_one_of_mem hnd ht

/-- C1 witness: one thread sleeps 1 tick at clock 0 and one tick fires;
it is woken exactly once. -/
theorem no_lost_wakeup_witness :
    (tids (run boot ([] ++ Event.sleep 0 1 :: [Event.tick])).ready).count 0
      = 1 :=
  no_lost_wakeup [] [Event.tick] 0 1 (by decide) (by decide) (by decide)

/-- C2: in every reachable state of every valid sequence, every unit the
sleep mechanism has transitioned to Ready has its wakeup tick at or
below the Global Clock — no unit is woken while wake_tick exceeds the
clock. -/
theorem no_premature_wakeup (evs : List Event) (r : SleepRec)
    (hv : Valid boot evs) (hr : r ∈ (run boot evs).ready) :
    r.wakeup_tick ≤ (run boot evs).ticks :=
  (Inv_run boot evs Inv_boot hv).ready_le r hr

/-- C2 witness: the thread woken after sleeping 1 tick was due at the
clock value it was woken at. -/
theorem no_premature_wakeup_witness :
    (⟨ 0, 1⟩ : SleepRec).wakeup_tick ≤
      (run boot [Event.sleep 0 1, Event.tick]).ticks :=
  no_premature_wakeup [Event.sleep 0 1, Event.tick] ⟨ 0, 1⟩
    (by decide) (by decide)

/-- C3: after every valid run (hence immediately after every registry
mutation), the cache equals the minimum wakeup tick over the registry
members, or the sentinel INT64_MAX when the registry is empty. -/
theorem cache_correct (evs : List Event) (hv : Valid boot evs) :
    ((run boot evs).sleeping_list = [] →
      (run boot evs).next_wakeup_tick = INT64_MAX) ∧
    ((run boot evs).sleeping_list ≠ [] →
      (run boot evs).next_wakeup_tick ∈
        (run boot evs).sleeping_list.map SleepRec.wakeup_tick ∧
      ∀ r ∈ (run boot evs).sleeping_list,
        (run boot evs).next_wakeup_tick ≤ r.wakeup_tick) := by
  have hI := Inv_run boot evs Inv_boot hv
  constructor
  · intro h
    rw [hI.cache, h, registry_min_nil]
  · intro h
    refine ⟨?_, ?_⟩
    · rw [hI.cache]
      exact registry_min_mem _ h hI.bounded
    · intro r hr
      rw [hI.cache]
      exact registry_min_le _ r hr

/-- C3 witness: after one insertion the cache is the (attained) minimum
of the singleton registry. -/
theorem cache_correct_witness :
    ((run boot [Event.sleep 0 3]).sleeping_list = [] →
      (run boot [Event.sleep 0 3]).next_wakeup_tick = INT64_MAX) ∧
    ((run boot [Event.sleep 0 3]).sleeping_list ≠ [] →
      (run boot [Event.sleep 0 3]).next_wakeup_tick ∈
        (run boot [Event.sleep 0 3]).sleeping_list.map SleepRec.wakeup_tick ∧
      ∀ r ∈ (run boot [Event.sleep 0 3]).sleeping_list,
        (run boot [Event.sleep 0 3]).next_wakeup_tick ≤ r.wakeup_tick) :=
  cache_correct [Event.sleep 0 3] (by decide)

/-- C4: a sleep request with a zero or negative duration is a complete
no-op: the state — registry, cache, clock and ready log — is unchanged
and the caller is never suspended. -/
theorem sleep_nonpositive_noop (st : KState) (t : Nat) (d : Int)
    (h : d ≤ 0) : timer_sleep st t d = st := by
  unfold timer_sleep
  rw [if_pos h]

/-- C4 witness: a 0-tick sleep request at boot changes nothing. -/
theorem sleep_nonpositive_noop_witness : timer_sleep boot 7 0 = boot :=
  sleep_nonpositive_noop boot 7 0 (by decide)

/-- C5: after every valid sequence of insertions and wake-scan removals
the registry is ascending by wakeup tick and no unit appears twice. -/
theorem registry_sorted_unique (evs : List Event) (hv : Valid boot evs) :
    (run boot evs).sleeping_list.Pairwise
      (fun a b => a.wakeup_tick ≤ b.wakeup_tick) ∧
    (tids (run boot evs).sleeping_list).Nodup := by
  have hI := Inv_run boot evs Inv_boot hv
  exact ⟨hI.sorted, (List.nodup_append.mp hI.nodup).1⟩

/-- C5 witness: two out-of-order requests end up sorted and distinct. -/
theorem registry_sorted_unique_witness :
    (run boot [Event.sleep 0 5, Event.sleep 1 1]).sleeping_list.Pairwise
      (fun a b => a.wakeup_tick ≤ b.wakeup_tick) ∧
    (tids (run boot [Event.sleep 0 5, Event.sleep 1 1]).sleeping_list).Nodup :=
  registry_sorted_unique [Event.sleep 0 5, Event.sleep 1 1] (by decide)

/-- C6: on a tick where, after the increment, the Global Clock is still
strictly below the cache, the handler performs zero comparisons against
registry entries and only advances the clock: registry, cache and ready
log are untouched. -/
theorem scan_skip (st : KState) (h : st.ticks + 1 < st.next_wakeup_tick) :
    tick_comparisons st = 0 ∧
    timer_interrupt st = { st with ticks := st.ticks + 1 } := by
  constructor
  · unfold tick_comparisons
    rw [if_neg (by omega)]
  · show (if st.next_wakeup_tick ≤ st.ticks + 1 then
        check_sleeping_threads { st with ticks := st.ticks + 1 }
      else { st with ticks := st.ticks + 1 }) =
      { st with ticks := st.ticks + 1 }
    rw [if_neg (by omega)]

/-- C6 witness: at boot, the cache is the sentinel, so a tick skips the
scan entirely. -/
theorem scan_skip_witness :
    tick_comparisons boot = 0 ∧
    timer_interrupt boot = { boot with ticks := boot.ticks + 1 } :=
  scan_skip boot (by decide)

end Alarm
